import Mathlib

/-!
# settle: boundary validators and user credential issuance

A shallow embedding of `mint/endpoint/validations.go` and
`register/model/user.go`.

Conventions of the embedding:

* a Go `string` is a Lean `String`; Go's `len(s)` is the number of bytes of
  the UTF-8 encoding, `String.utf8ByteSize`; the characters of `s` are
  `s.data`;
* a `*big.Int` is an `Int`; a `[]byte` is a `List UInt8`;
* a Go function returning `(value, error)` where exactly one of the two is
  meaningful returns `Except`; `errors.Trace` only attaches a stack trace and
  is the identity here;
* calls into the Go standard library (`math/big`, `strconv`, `regexp`,
  `encoding/base64`) are embedded by functions following the library code for
  the arguments the program passes (base 10, bit size 8, the one pattern).
-/

namespace Settle

/-! ## Errors -/

/-- Modelled from the spec: `lib/errors` is not among the sources; a user error
as built by `errors.NewUserErrorf(cause, status, code, format, args...)`
carries the HTTP status, the stable machine-readable code, the rendered
message and the optional cause. -/
structure UserError (ε : Type) where
  status : Nat
  code : String
  message : String
  cause : Option ε
  deriving DecidableEq, Repr

deriving instance DecidableEq for Except

/-- Modelled from the spec: `mint/model.MaxAssetAmount` is not among the
sources; the spec and the error messages give the exclusive bound `2^128`. -/
def MaxAssetAmount : Int := 2 ^ 128

/-! ## `math/big`: `(*Int).SetString(s, 10)` -/

/-- Value of a decimal digit character, `ch - '0'`. -/
def digitVal (c : Char) : Nat := c.toNat - 48

/-- The digit loop of `nat.scan` for base 10 (no base prefix, no underscores,
no fraction): consume digits `0..9`, accumulating the value and counting them,
and stop in front of the first other character. Returns the value, the number
of digits read and the unread rest. -/
def natScan10 : Nat → Nat → List Char → Nat × Nat × List Char
  | z, count, [] => (z, count, [])
  | z, count, c :: cs =>
    if c.isDigit then natScan10 (z * 10 + digitVal c) (count + 1) cs
    else (z, count, c :: cs)

/-- The function `scanSign`: read one byte; `-` sets the sign, `+` is skipped,
anything else is unread. Fails at end of input. -/
def scanSign : List Char → Option (Bool × List Char)
  | [] => none
  | c :: cs =>
    if c = '-' then some (true, cs)
    else if c = '+' then some (false, cs)
    else some (false, c :: cs)

/-- The method `(*big.Int).SetString(s, 10)`: sign, then at least one digit,
then the whole input must have been consumed. `none` is `success = false`. -/
def bigSetString10 (s : String) : Option Int :=
  match scanSign s.data with
  | none => none
  | some (neg, r) =>
    match natScan10 0 0 r with
    | (abs, count, rest) =>
      if count = 0 then none
      else if rest ≠ [] then none
      else some (if neg && decide (abs ≠ 0) then -(abs : Int) else (abs : Int))

/-! ## `ValidateAmount` -/

/-- The error returned by `ValidateAmount`. -/
def amountInvalid (amount : String) : UserError Empty :=
  { status := 400, code := "amount_invalid",
    message := "The amount you provided is invalid: " ++ amount ++
      ". Amounts must be integers between 0 and 2^128.",
    cause := none }

/-- The validator `ValidateAmount` of `validations.go`. -/
def ValidateAmount (amount : String) : Except (UserError Empty) Int :=
  match bigSetString10 amount with
  | none => .error (amountInvalid amount)
  | some a =>
    if a < 0 ∨ a ≥ MaxAssetAmount then .error (amountInvalid amount)
    else .ok a

/-! ## `ValidatePrice` -/

/-- The call `PriceRegexp.FindStringSubmatch(price)` for the pattern
`^([0-9]+)\/([0-9]+)$`: a maximal run of digits, one slash, digits up to the
end of the text. Returns the whole match and the two groups, or the empty
slice when the text does not match. -/
def PriceRegexp_FindStringSubmatch (price : String) : List String :=
  let g1 := price.data.takeWhile Char.isDigit
  match price.data.dropWhile Char.isDigit with
  | c :: g2 =>
    if c = '/' ∧ g1 ≠ [] ∧ g2 ≠ [] ∧ g2.all Char.isDigit = true
    then [price, String.mk g1, String.mk g2] else []
  | [] => []

/-- First error of `ValidatePrice`: the text is not of the form `pB/pQ`. -/
def priceInvalid (price : String) : UserError Empty :=
  { status := 400, code := "price_invalid",
    message := "The offer price you provided is invalid: " ++ price ++
      ". Prices must have the form \x27pB/pQ\x27 where pB is the base asset " ++
      "price and pQ is the quote asset price.",
    cause := none }

/-- Second error of `ValidatePrice`: the base price is out of range. -/
def basePriceInvalid (m1 : String) : UserError Empty :=
  { status := 400, code := "price_invalid",
    message := "The base asset price you provided is invalid: " ++ m1 ++
      ". Asset prices must be integers between 0 and 2^128.",
    cause := none }

/-- Third error of `ValidatePrice`: the quote price is out of range. -/
def quotePriceInvalid (m2 : String) : UserError Empty :=
  { status := 400, code := "price_invalid",
    message := "The quote asset price you provided is invalid: " ++ m2 ++
      ". Asset prices must be integers between 0 and 2^128.",
    cause := none }

/-- The validator `ValidatePrice` of `validations.go`. -/
def ValidatePrice (price : String) : Except (UserError Empty) (Int × Int) :=
  let m := PriceRegexp_FindStringSubmatch price
  if m.length = 0 then .error (priceInvalid price)
  else
    match bigSetString10 (m.getD 1 "") with
    | none => .error (basePriceInvalid (m.getD 1 ""))
    | some basePrice =>
      if basePrice < 0 ∨ basePrice ≥ MaxAssetAmount then
        .error (basePriceInvalid (m.getD 1 ""))
      else
        match bigSetString10 (m.getD 2 "") with
        | none => .error (quotePriceInvalid (m.getD 2 ""))
        | some quotePrice =>
          if quotePrice < 0 ∨ quotePrice ≥ MaxAssetAmount then
            .error (quotePriceInvalid (m.getD 2 ""))
          else .ok (basePrice, quotePrice)

/-! ## `strconv.ParseInt(s, 10, 8)` -/

/-- The two sentinel errors of `strconv`. -/
inductive NumErrKind where
  | ErrSyntax
  | ErrRange
  deriving DecidableEq, Repr

/-- The type `strconv.NumError`. -/
structure NumError where
  Func : String
  Num : String
  Err : NumErrKind
  deriving DecidableEq, Repr

/-- The constant `maxUint64`. -/
def maxUint64 : Nat := 2 ^ 64 - 1

/-- The conversion `int64(x)` of a `uint64`. -/
def toInt64 (x : Nat) : Int := ((x : Int) + 2 ^ 63) % 2 ^ 64 - 2 ^ 63

/-- The conversion `int8(h)` of an `int64`. -/
def toInt8 (h : Int) : Int := (h + 2 ^ 7) % 2 ^ 8 - 2 ^ 7

/-- The digit loop of `strconv.ParseUint(s, 10, 8)`; `s0` is the text the
errors name, `n` the `uint64` accumulated so far. A byte that is no digit of
base 10 is a syntax error; going past `maxVal = 2^8 - 1` is a range error that
returns `maxVal`. -/
def parseUintLoop (s0 : String) (n : Nat) : List Char → Nat × Option NumError
  | [] => (n, none)
  | c :: cs =>
    let lower := c.toNat ||| 0x20
    let d : Option Nat :=
      if c.isDigit then some (c.toNat - 48)
      else if 97 ≤ lower ∧ lower ≤ 122 then some (lower - 97 + 10)
      else none
    match d with
    | none => (0, some ⟨"ParseUint", s0, .ErrSyntax⟩)
    | some d =>
      if d ≥ 10 then (0, some ⟨"ParseUint", s0, .ErrSyntax⟩)
      else if n ≥ maxUint64 / 10 + 1 then (2 ^ 8 - 1, some ⟨"ParseUint", s0, .ErrRange⟩)
      else
        let n10 := n * 10 % 2 ^ 64
        let n1 := (n10 + d) % 2 ^ 64
        if n1 < n10 ∨ n1 > 2 ^ 8 - 1 then (2 ^ 8 - 1, some ⟨"ParseUint", s0, .ErrRange⟩)
        else parseUintLoop s0 n1 cs

/-- The call `strconv.ParseUint(s, 10, 8)`. -/
def ParseUint (s : List Char) : Nat × Option NumError :=
  if s = [] then (0, some ⟨"ParseUint", String.mk s, .ErrSyntax⟩)
  else parseUintLoop (String.mk s) 0 s

/-- The call `strconv.ParseInt(s, 10, 8)`: pick off a leading sign, convert the
rest as unsigned and check the range against `cutoff = 1 << 7`. -/
def ParseInt (s0 : String) : Int × Option NumError :=
  if s0.data = [] then (0, some ⟨"ParseInt", s0, .ErrSyntax⟩)
  else
    let signed : Bool × List Char :=
      match s0.data with
      | c :: cs => if c = '+' then (false, cs) else if c = '-' then (true, cs) else (false, c :: cs)
      | [] => (false, [])
    let neg := signed.1
    let r := ParseUint signed.2
    let un := r.1
    match r.2 with
    | some ⟨_, _, .ErrSyntax⟩ => (0, some ⟨"ParseInt", s0, .ErrSyntax⟩)
    | _ =>
      let cutoff : Nat := 2 ^ 7
      if !neg ∧ un ≥ cutoff then ((cutoff : Int) - 1, some ⟨"ParseInt", s0, .ErrRange⟩)
      else if neg ∧ un > cutoff then (-(cutoff : Int), some ⟨"ParseInt", s0, .ErrRange⟩)
      else (if neg then -(toInt64 un) else toInt64 un, none)

/-! ## `ValidateHop`, `ValidateSecret`, `ValidatePath` -/

/-- The error returned by `ValidateHop`; its cause is the parse error, if
any. -/
def hopInvalid (hop : String) (err : Option NumError) : UserError NumError :=
  { status := 400, code := "hop_invalid",
    message := "The transaction hop provided is invalid: " ++ hop ++
      ". Transaction hops must be 8 bits positive integers.",
    cause := err }

/-- The validator `ValidateHop` of `validations.go`. -/
def ValidateHop (hop : String) : Except (UserError NumError) Int :=
  let r := ParseInt hop
  if r.2 ≠ none ∨ r.1 < 0 then .error (hopInvalid hop r.2)
  else .ok (toInt8 r.1)

/-- The error returned by `ValidateSecret`. -/
def secretInvalid (secret : String) : UserError Empty :=
  { status := 400, code := "secret_invalid",
    message := "The secret you provided is structurally invalid: " ++ secret ++ ".",
    cause := none }

/-- The validator `ValidateSecret` of `validations.go`; `len(secret)` is the
number of bytes of the string. -/
def ValidateSecret (secret : String) : Except (UserError Empty) String :=
  if secret.utf8ByteSize ≠ 16 then .error (secretInvalid secret)
  else .ok secret

/-- The error returned by `ValidatePath` for the offending element. -/
def pathInvalid {ε : Type} (offer : String) (err : ε) : UserError ε :=
  { status := 400, code := "path_invalid",
    message := "The offer id you provided in \x60path[]\x60 is invalid: " ++ offer ++
      ". Offer ids must have the form kgodel@princetown.edu[offer_*]",
    cause := some err }

/-- The loop of `ValidatePath`: the error of the first element the normalizer
rejects, if any. The normalizer `mint.NormalizedOwnerAndTokenFromID` is not
among the sources and is a parameter. -/
def ValidatePath.loop {ε : Type} (normalize : String → Except ε (String × String)) :
    List String → Option (UserError ε)
  | [] => none
  | offer :: rest =>
    match normalize offer with
    | .error err => some (pathInvalid offer err)
    | .ok _ => ValidatePath.loop normalize rest

/-- The validator `ValidatePath` of `validations.go`. -/
def ValidatePath {ε : Type} (normalize : String → Except ε (String × String))
    (path : List String) : Except (UserError ε) (List String) :=
  match ValidatePath.loop normalize path with
  | some e => .error e
  | none => .ok path

/-! ## Decimal numerals -/

/-- Base-10 value of a sequence of digit characters. -/
def decVal (ds : List Char) : Nat := ds.foldl (fun a c => a * 10 + digitVal c) 0

/-- A non-empty sequence of the ASCII decimal digits. -/
def IsDigits (ds : List Char) : Prop := ds ≠ [] ∧ ∀ c ∈ ds, c.isDigit = true

instance (ds : List Char) : Decidable (IsDigits ds) := by
  unfold IsDigits; infer_instance

/-- The anchored pattern `^([0-9]+)/([0-9]+)$` as a relation: the text is a
non-empty digit sequence, one slash, a non-empty digit sequence; `g1` and `g2`
are the two captured groups. -/
def MatchesPriceRegexp (s : String) (g1 g2 : List Char) : Prop :=
  IsDigits g1 ∧ IsDigits g2 ∧ s.data = g1 ++ '/' :: g2

/-! ## `encoding/base64`: `RawURLEncoding.EncodeToString` -/

/-- The URL-safe alphabet `encodeURL` of `encoding/base64`. -/
def encodeURL : List Char :=
  "ABCDEFGHIJKLMNOPQRSTUVWXYZabcdefghijklmnopqrstuvwxyz0123456789-_".data

/-- The lookup `enc.encode[i]`. -/
def encodeChar (i : Nat) : Char := encodeURL.getD i 'A'

/-- The call `base64.RawURLEncoding.EncodeToString(src)`: every full group of
three bytes gives four characters, a remainder of one byte gives two and a
remainder of two bytes gives three; no padding character is written. -/
def rawURLEncode : List UInt8 → List Char
  | b0 :: b1 :: b2 :: rest =>
    let val := b0.toNat <<< 16 ||| b1.toNat <<< 8 ||| b2.toNat
    encodeChar (val >>> 18 &&& 0x3F) :: encodeChar (val >>> 12 &&& 0x3F) ::
      encodeChar (val >>> 6 &&& 0x3F) :: encodeChar (val &&& 0x3F) :: rawURLEncode rest
  | [b0, b1] =>
    let val := b0.toNat <<< 16 ||| b1.toNat <<< 8
    [encodeChar (val >>> 18 &&& 0x3F), encodeChar (val >>> 12 &&& 0x3F),
      encodeChar (val >>> 6 &&& 0x3F)]
  | [b0] =>
    let val := b0.toNat <<< 16
    [encodeChar (val >>> 18 &&& 0x3F), encodeChar (val >>> 12 &&& 0x3F)]
  | [] => []

/-- A character of the base64url alphabet: a letter, a digit, `-` or `_`. -/
def IsBase64URLChar (c : Char) : Prop := c.isAlphanum = true ∨ c = '-' ∨ c = '_'

/-- The lookup `enc.decodeMap[c]`: the position of `c` in the alphabet, if
any. -/
def decodeChar (c : Char) : Option Nat :=
  if encodeURL.indexOf c < 64 then some (encodeURL.indexOf c) else none

/-- Decoding of unpadded base64url text (RFC 4648, section 5), the inverse
direction of `RawURLEncoding`: four characters give three bytes, a final group
of three characters gives two bytes and one of two characters gives one byte;
a character outside the alphabet or a final group of one character is an
error. -/
def rawURLDecode : List Char → Option (List UInt8)
  | c0 :: c1 :: c2 :: c3 :: rest =>
    match decodeChar c0, decodeChar c1, decodeChar c2, decodeChar c3, rawURLDecode rest with
    | some v0, some v1, some v2, some v3, some tail =>
      let val := v0 <<< 18 ||| v1 <<< 12 ||| v2 <<< 6 ||| v3
      some (UInt8.ofNat (val >>> 16) :: UInt8.ofNat (val >>> 8) :: UInt8.ofNat val :: tail)
    | _, _, _, _, _ => none
  | [c0, c1, c2] =>
    match decodeChar c0, decodeChar c1, decodeChar c2 with
    | some v0, some v1, some v2 =>
      let val := v0 <<< 18 ||| v1 <<< 12 ||| v2 <<< 6
      some [UInt8.ofNat (val >>> 16), UInt8.ofNat (val >>> 8)]
    | _, _, _ => none
  | [c0, c1] =>
    match decodeChar c0, decodeChar c1 with
    | some v0, some v1 =>
      let val := v0 <<< 18 ||| v1 <<< 12
      some [UInt8.ofNat (val >>> 16)]
    | _, _ => none
  | [_] => none
  | [] => some []

/-! ## `register/model`: users -/

/-- Modelled from the spec: `register.UsrStatus` is not among the sources; the
spec gives the two states of a user. -/
inductive UsrStatus where
  | UsrStUnverified
  | UsrStVerified
  deriving DecidableEq, Repr

/-- The constant `SecretByteLen`. -/
def SecretByteLen : Nat := 64

/-- The constant `PasswordByteLen`, the key length of the password derivation
(its comment in `user.go` reads "length in byte of the secret"; the secret is
derived with `SecretByteLen`). -/
def PasswordByteLen : Nat := 16

/-- The struct `User`; `Created` is the creation time as a number. -/
structure User where
  Token : String
  Created : Nat
  Status : UsrStatus
  Username : String
  Email : String
  Secret : String
  Password : String
  MintToken : Option String
  deriving DecidableEq, Repr

/-- The type of `scrypt.Key(password, salt, N, r, p, keyLen)`, a function of
an external library: it returns the derived key or an error. -/
abbrev ScryptKey (ε : Type) : Type :=
  String → String → Nat → Nat → Nat → Nat → Except ε (List UInt8)

/-- An error of the database layer as `CreateUser` tells them apart: a
`*pq.Error` with its code, a `sqlite3.Error` with its code and extended code,
or any other error. -/
inductive StoreError where
  | pqError (code : String)
  | sqliteError (code extendedCode : Nat)
  | other (msg : String)
  deriving DecidableEq, Repr

/-- The constant `sqlite3.ErrConstraintUnique`, `ErrConstraint.Extend(8)`. -/
def sqlite3ErrConstraintUnique : Nat := 19 ||| (8 <<< 8)

/-- The errors `CreateUser` and `RollPassword` return: a key derivation error,
a store error passed through, or `ErrUniqueConstraintViolation` with its
cause. -/
inductive ModelError (ε : Type) where
  | derivation (err : ε)
  | store (err : StoreError)
  | ErrUniqueConstraintViolation (cause : StoreError)
  deriving DecidableEq, Repr

/-- Everything `CreateUser` reads from outside: the fresh token of
`token.New("user")`, the clock, the two passphrases drawn by the two calls of
`token.RandStr()`, the key derivation, the answer of the store to the
`INSERT`, and `pq.ErrorCode.Name`. -/
structure Env (ε : Type) where
  newToken : String
  now : Nat
  randStr1 : String
  randStr2 : String
  scryptKey : ScryptKey ε
  namedExecInsert : User → Option StoreError
  pqCodeName : String → String

/-- The type switch of `CreateUser` on the error of the `INSERT`. -/
def classifyInsertError {ε : Type} (pqCodeName : String → String) (err : StoreError) :
    ModelError ε :=
  match err with
  | .pqError code =>
    if pqCodeName code = "unique_violation" then .ErrUniqueConstraintViolation err
    else .store err
  | .sqliteError _ extendedCode =>
    if extendedCode = sqlite3ErrConstraintUnique then .ErrUniqueConstraintViolation err
    else .store err
  | .other _ => .store err

/-- The function `CreateUser` of `user.go`. The second component lists the
rows handed to the `INSERT` statement, in order. -/
def CreateUser {ε : Type} (env : Env ε) (username email : String) :
    Except (ModelError ε) User × List User :=
  let user : User :=
    { Token := env.newToken, Created := env.now, Status := .UsrStUnverified,
      Username := username, Email := email, Secret := "", Password := "",
      MintToken := none }
  match env.scryptKey env.randStr1 user.Token 16384 8 1 SecretByteLen with
  | .error err => (.error (.derivation err), [])
  | .ok h =>
    let user := { user with Secret := String.mk (rawURLEncode h) }
    match env.scryptKey env.randStr2 user.Token 16384 8 1 PasswordByteLen with
    | .error err => (.error (.derivation err), [])
    | .ok h =>
      let user := { user with Password := String.mk (rawURLEncode h) }
      match env.namedExecInsert user with
      | some err => (.error (classifyInsertError env.pqCodeName err), [user])
      | none => (.ok user, [user])

/-- The method `(*User).RollPassword` of `user.go`: the user after the call
and the returned error; `randStr` is the passphrase drawn by
`token.RandStr()`. -/
def User.RollPassword {ε : Type} (scryptKey : ScryptKey ε) (randStr : String) (u : User) :
    User × Option (ModelError ε) :=
  match scryptKey randStr u.Token 16384 8 1 PasswordByteLen with
  | .error err => (u, some (.derivation err))
  | .ok h => ({ u with Password := String.mk (rawURLEncode h) }, none)

/-! ## Vocabulary of the statements -/

/-- The store error is one of the two uniqueness signals: a PostgreSQL error
whose code name is `unique_violation`, or a SQLite error whose extended code
is `ErrConstraintUnique`. -/
def IsUniqueViolation (pqCodeName : String → String) (e : StoreError) : Prop :=
  (∃ code, e = .pqError code ∧ pqCodeName code = "unique_violation") ∨
  (∃ code, e = .sqliteError code sqlite3ErrConstraintUnique)

/-- The user value that `CreateUser` has built when it reaches the `INSERT`,
given the two derived keys. -/
def insertedUser {ε : Type} (env : Env ε) (username email : String) (k1 k2 : List UInt8) :
    User :=
  { Token := env.newToken, Created := env.now, Status := .UsrStUnverified,
    Username := username, Email := email, Secret := String.mk (rawURLEncode k1),
    Password := String.mk (rawURLEncode k2), MintToken := none }

/-- A sample environment: the derivation returns `keyLen` zero bytes and the
store answers every `INSERT` with the PostgreSQL error of code `23505`, named
`unique_violation`. -/
def sampleEnvConflict : Env String :=
  { newToken := "user_0", now := 0, randStr1 := "p1", randStr2 := "p2",
    scryptKey := fun _ _ _ _ _ keyLen => .ok (List.replicate keyLen 0),
    namedExecInsert := fun _ => some (.pqError "23505"),
    pqCodeName := fun code => if code = "23505" then "unique_violation" else "" }

/-- A sample environment: the derivation returns the `keyLen` bytes
`11, 48, 85, ...` (byte `i` is `37 * i + 11` modulo 256) and the store accepts
every `INSERT`. -/
def sampleEnvOk : Env String :=
  { newToken := "user_0", now := 0, randStr1 := "p1", randStr2 := "p2",
    scryptKey := fun _ _ _ _ _ keyLen =>
      .ok ((List.range keyLen).map (fun i => UInt8.ofNat (37 * i + 11))),
    namedExecInsert := fun _ => none,
    pqCodeName := fun code => if code = "23505" then "unique_violation" else "" }

/-! # Theorems -/

theorem decVal_append_singleton (ds : List Char) (c : Char) :
    decVal (ds ++ [c]) = decVal ds * 10 + digitVal c := by
  simp [decVal, List.foldl_append]

theorem digitChar_isDigit (d : Nat) (h : d < 10) :
    (Nat.digitChar d).isDigit = true ∧ digitVal (Nat.digitChar d) = d := by
  interval_cases d <;> exact ⟨by decide, by decide⟩

theorem toDigitsCore_spec (fuel : Nat) : ∀ (n : Nat) (acc : List Char), n < fuel →
    ∃ ds, Nat.toDigitsCore 10 fuel n acc = ds ++ acc ∧ IsDigits ds ∧ decVal ds = n := by
  induction fuel with
  | zero => intro n acc h; omega
  | succ fuel ih =>
    intro n acc h
    obtain ⟨hd, hv⟩ := digitChar_isDigit (n % 10) (Nat.mod_lt _ (by decide))
    by_cases h0 : n / 10 = 0
    · refine ⟨[Nat.digitChar (n % 10)], ?_, ⟨by simp, by simpa using hd⟩, ?_⟩
      · simp [Nat.toDigitsCore, h0]
      · simp only [decVal, List.foldl, hv]; omega
    · obtain ⟨ds, h1, ⟨h2, h3⟩, h4⟩ :=
        ih (n / 10) (Nat.digitChar (n % 10) :: acc) (by omega)
      refine ⟨ds ++ [Nat.digitChar (n % 10)], ?_, ⟨by simp, ?_⟩, ?_⟩
      · simp [Nat.toDigitsCore, h0, h1]
      · intro c hc
        rcases List.mem_append.mp hc with hc | hc
        · exact h3 c hc
        · simpa [List.mem_singleton.mp hc] using hd
      · rw [decVal_append_singleton, h4, hv]; omega

/-- The base-10 representation of a natural number is a non-empty digit
sequence whose value is the number. -/
theorem repr_nat_spec (n : Nat) :
    IsDigits (toString n).data ∧ decVal (toString n).data = n := by
  obtain ⟨ds, h1, h2, h3⟩ := toDigitsCore_spec (n + 1) n [] (by omega)
  have : (toString n).data = ds := by
    show (Nat.repr n).data = ds
    simp [Nat.repr, Nat.toDigits, h1, List.asString]
  rw [this]; exact ⟨h2, h3⟩

theorem natScan10_digits (ds : List Char) (hd : ∀ c ∈ ds, c.isDigit = true) :
    ∀ z count, natScan10 z count ds
      = (ds.foldl (fun a c => a * 10 + digitVal c) z, count + ds.length, []) := by
  induction ds with
  | nil => intro z count; simp [natScan10]
  | cons c cs ih =>
    intro z count
    have hc : c.isDigit = true := hd c (by simp)
    simp only [natScan10, hc, if_true, List.foldl, List.length]
    rw [ih (fun x hx => hd x (by simp [hx]))]
    congr 2; omega

theorem natScan10_spec (l : List Char) : ∀ z count, natScan10 z count l
    = ((l.takeWhile Char.isDigit).foldl (fun a c => a * 10 + digitVal c) z,
       count + (l.takeWhile Char.isDigit).length, l.dropWhile Char.isDigit) := by
  induction l with
  | nil => intro z count; simp [natScan10]
  | cons c cs ih =>
    intro z count
    by_cases hc : c.isDigit = true
    · simp only [natScan10, hc, if_true, List.takeWhile_cons, List.dropWhile_cons,
        List.foldl, List.length]
      rw [ih]; congr 2; omega
    · simp [natScan10, hc, List.takeWhile_cons, List.dropWhile_cons]

theorem isDigit_ne_sign (c : Char) (h : c.isDigit = true) : c ≠ '-' ∧ c ≠ '+' := by
  constructor <;> (rintro rfl; revert h; decide)

/-- On a plain digit sequence `SetString` succeeds with its value. -/
theorem bigSetString10_digits (s : String) (h : IsDigits s.data) :
    bigSetString10 s = some (decVal s.data : Int) := by
  obtain ⟨hne, hd⟩ := h
  obtain ⟨c, cs, hs⟩ := List.exists_cons_of_ne_nil hne
  have hc := isDigit_ne_sign c (hd c (by simp [hs]))
  have hlen : 0 < s.data.length := List.length_pos.mpr hne
  simp only [bigSetString10, hs, scanSign, hc.1, hc.2, if_false]
  rw [← hs, natScan10_digits _ hd]
  have : ¬ (0 + s.data.length = 0) := by omega
  simp only [this, if_false, ne_eq, not_true_eq_false, Bool.false_and, decVal]
  rfl

/-- On `-` followed by a digit sequence `SetString` succeeds with the negated
value. -/
theorem bigSetString10_neg (s : String) (ds : List Char) (hs : s.data = '-' :: ds)
    (h : IsDigits ds) : bigSetString10 s = some (-(decVal ds : Int)) := by
  obtain ⟨hne, hd⟩ := h
  have hlen : 0 < ds.length := List.length_pos.mpr hne
  simp only [bigSetString10, hs, scanSign, if_true]
  rw [natScan10_digits _ hd]
  have : ¬ (0 + ds.length = 0) := by omega
  simp only [this, if_false, ne_eq, not_true, not_false_eq_true, List.foldl]
  by_cases h0 : decVal ds = 0
  · simp [decVal] at h0 ⊢; simp [h0]
  · simp [decVal] at h0 ⊢; simp [h0]

/-- Shape of every input that `SetString(s, 10)` accepts: an optional single
sign followed by a non-empty digit sequence. -/
theorem bigSetString10_some (s : String) (v : Int) (h : bigSetString10 s = some v) :
    ∃ ds, IsDigits ds ∧
      ((s.data = ds ∧ v = decVal ds) ∨ (s.data = '+' :: ds ∧ v = decVal ds) ∨
       (s.data = '-' :: ds ∧ v = -(decVal ds : Int))) := by
  unfold bigSetString10 at h
  cases hs : s.data with
  | nil => simp [hs, scanSign] at h
  | cons c cs =>
    have key : ∀ r : List Char, ∀ neg : Bool,
        (match natScan10 0 0 r with
          | (abs, count, rest) =>
            if count = 0 then none
            else if rest ≠ [] then none
            else some (if neg && decide (abs ≠ 0) then -(abs : Int) else (abs : Int))) = some v →
        IsDigits r ∧ v = (if neg && decide (decVal r ≠ 0) then -(decVal r : Int) else decVal r) := by
      intro r neg hr
      rw [natScan10_spec] at hr
      simp only [Nat.zero_add] at hr
      by_cases h1 : (r.takeWhile Char.isDigit).length = 0
      · rw [if_pos h1] at hr; exact absurd hr (by simp)
      by_cases h2 : r.dropWhile Char.isDigit ≠ []
      · rw [if_neg h1, if_pos h2] at hr; exact absurd hr (by simp)
      rw [if_neg h1, if_neg h2] at hr
      have hdrop : r.dropWhile Char.isDigit = [] := by simpa using h2
      have hall : ∀ c ∈ r, c.isDigit = true := by
        simpa [List.dropWhile_eq_nil_iff] using hdrop
      have htake : r.takeWhile Char.isDigit = r := by
        simpa [List.takeWhile_eq_self_iff] using hall
      rw [htake] at hr h1
      refine ⟨⟨by intro h0; simp [h0] at h1, hall⟩, ?_⟩
      simpa [decVal] using (Option.some.inj hr).symm
    rw [hs] at h
    simp only [scanSign] at h
    split_ifs at h with hm hp
    · obtain ⟨hd, hv⟩ := key cs true h
      refine ⟨cs, hd, Or.inr (Or.inr ⟨by rw [hm], ?_⟩)⟩
      by_cases h0 : decVal cs = 0 <;> simp [h0] at hv ⊢ <;> exact hv
    · obtain ⟨hd, hv⟩ := key cs false h
      exact ⟨cs, hd, Or.inr (Or.inl ⟨by rw [hp], by simpa using hv⟩)⟩
    · obtain ⟨hd, hv⟩ := key (c :: cs) false h
      exact ⟨c :: cs, hd, Or.inl ⟨rfl, by simpa using hv⟩⟩

/-! ## The price pattern -/

theorem takeWhile_digits_slash (g1 g2 : List Char) (h : ∀ c ∈ g1, c.isDigit = true) :
    (g1 ++ '/' :: g2).takeWhile Char.isDigit = g1 ∧
    (g1 ++ '/' :: g2).dropWhile Char.isDigit = '/' :: g2 := by
  induction g1 with
  | nil => exact ⟨by simp [List.takeWhile_cons], by simp [List.dropWhile_cons]⟩
  | cons c cs ih =>
    have hc : c.isDigit = true := h c (by simp)
    obtain ⟨i1, i2⟩ := ih (fun x hx => h x (by simp [hx]))
    exact ⟨by simp [List.takeWhile_cons, hc, i1], by simp [List.dropWhile_cons, hc, i2]⟩

theorem FindStringSubmatch_of_match (s : String) (g1 g2 : List Char)
    (h : MatchesPriceRegexp s g1 g2) :
    PriceRegexp_FindStringSubmatch s = [s, String.mk g1, String.mk g2] := by
  obtain ⟨⟨n1, d1⟩, ⟨n2, d2⟩, hs⟩ := h
  obtain ⟨t1, t2⟩ := takeWhile_digits_slash g1 g2 d1
  have hall : g2.all Char.isDigit = true := by simpa using d2
  simp only [PriceRegexp_FindStringSubmatch, hs, t1, t2]
  rw [if_pos ⟨trivial, n1, n2, hall⟩]

theorem FindStringSubmatch_cases (s : String) :
    PriceRegexp_FindStringSubmatch s = [] ∨ ∃ g1 g2, MatchesPriceRegexp s g1 g2 := by
  unfold PriceRegexp_FindStringSubmatch
  cases hd : s.data.dropWhile Char.isDigit with
  | nil => left; simp
  | cons c g2 =>
    by_cases hc : c = '/' ∧ s.data.takeWhile Char.isDigit ≠ [] ∧ g2 ≠ [] ∧
        g2.all Char.isDigit = true
    · right
      obtain ⟨h1, h2, h3, h4⟩ := hc
      refine ⟨s.data.takeWhile Char.isDigit, g2, ⟨h2, ?_⟩, ⟨h3, by simpa using h4⟩, ?_⟩
      · intro x hx
        exact (List.mem_takeWhile_imp hx)
      · rw [← h1, ← hd, List.takeWhile_append_dropWhile]
    · left; simp only [hc, if_false]

theorem MatchesPriceRegexp_unique (s : String) (g1 g2 k1 k2 : List Char)
    (h : MatchesPriceRegexp s g1 g2) (k : MatchesPriceRegexp s k1 k2) :
    g1 = k1 ∧ g2 = k2 := by
  have a := takeWhile_digits_slash g1 g2 h.1.2
  have b := takeWhile_digits_slash k1 k2 k.1.2
  rw [← h.2.2] at a; rw [← k.2.2] at b
  refine ⟨a.1.symm.trans b.1, ?_⟩
  have := a.2.symm.trans b.2
  simpa using this

/-- The result of `ValidatePrice` on a text that matches the pattern. -/
theorem ValidatePrice_of_match (s : String) (g1 g2 : List Char)
    (h : MatchesPriceRegexp s g1 g2) :
    ValidatePrice s =
      if (2 : Int) ^ 128 ≤ decVal g1 then .error (basePriceInvalid (String.mk g1))
      else if (2 : Int) ^ 128 ≤ decVal g2 then .error (quotePriceInvalid (String.mk g2))
      else .ok ((decVal g1 : Int), (decVal g2 : Int)) := by
  have hm := FindStringSubmatch_of_match s g1 g2 h
  have b1 := bigSetString10_digits (String.mk g1) h.1
  have b2 := bigSetString10_digits (String.mk g2) h.2.1
  have p1 : ¬ ((decVal g1 : Int) < 0) := by omega
  have p2 : ¬ ((decVal g2 : Int) < 0) := by omega
  simp only [ValidatePrice, hm, List.length_cons, List.length_nil, List.getD_cons_succ,
    List.getD_cons_zero, b1, b2, MaxAssetAmount, ge_iff_le, p1, p2, false_or]
  rw [if_neg (by omega)]

/-- The result of `ValidatePrice` on a text that does not match the pattern. -/
theorem ValidatePrice_of_no_match (s : String)
    (h : ¬ ∃ g1 g2, MatchesPriceRegexp s g1 g2) :
    ValidatePrice s = .error (priceInvalid s) := by
  rcases FindStringSubmatch_cases s with h0 | h1
  · simp [ValidatePrice, h0]
  · exact absurd h1 h

/-- The text `a/b` built from the base-10 representations of `a` and `b`
matches the price pattern with groups the two representations. -/
theorem repr_pair_matches (a b : Nat) :
    MatchesPriceRegexp (toString a ++ "/" ++ toString b)
      (toString a).data (toString b).data := by
  refine ⟨(repr_nat_spec a).1, (repr_nat_spec b).1, ?_⟩
  simp [String.data_append]

/-- The result of `ValidateAmount` on the base-10 representation of an
integer. -/
theorem ValidateAmount_toString (n : Int) :
    ValidateAmount (toString n) =
      if 0 ≤ n ∧ n < 2 ^ 128 then .ok n else .error (amountInvalid (toString n)) := by
  cases n with
  | ofNat m =>
    have hs : toString (Int.ofNat m) = toString m := rfl
    obtain ⟨hd, hv⟩ := repr_nat_spec m
    have p1 : ¬ ((m : Int) < 0) := by omega
    have p0 : (0 : Int) ≤ (m : Int) := by omega
    rw [hs]
    simp only [ValidateAmount, bigSetString10_digits _ hd, hv, MaxAssetAmount, p1, false_or,
      Int.ofNat_eq_coe, p0, true_and, ge_iff_le]
    by_cases hm : (m : Int) < 2 ^ 128
    · rw [if_neg (by omega), if_pos hm]
    · rw [if_pos (by omega), if_neg hm]
  | negSucc m =>
    have hs : toString (Int.negSucc m) = "-" ++ toString (m + 1) := rfl
    obtain ⟨hd, hv⟩ := repr_nat_spec (m + 1)
    have hdata : (toString (Int.negSucc m)).data = '-' :: (toString (m + 1)).data := by
      rw [hs]; simp [String.data_append]
    have hneg : ¬ ((0 : Int) ≤ Int.negSucc m ∧ Int.negSucc m < 2 ^ 128) := by
      intro h; have h1 := h.1; have h2 := Int.negSucc_lt_zero m; omega
    have hlt : -((m + 1 : Nat) : Int) < 0 := by omega
    simp only [ValidateAmount, bigSetString10_neg _ _ hdata hd, hv, hlt, true_or, if_true,
      hneg, if_false]

/-! ## Claims about the numeric validators -/

set_option maxRecDepth 100000 in
/-- C1: for naturals `a, b < 2^128`, `ValidatePrice` on the base-10
representation of `a`, a slash and the base-10 representation of `b` succeeds
and returns exactly `(a, b)`; the pair is not reduced to lowest terms, so `3/4`
gives `(3, 4)` and `2/4` gives `(2, 4)`. -/
theorem ValidatePrice_repr_pair (a b : Nat) (ha : a < 2 ^ 128) (hb : b < 2 ^ 128) :
    ValidatePrice (toString a ++ "/" ++ toString b) = .ok ((a : Int), (b : Int)) ∧
    ValidatePrice "3/4" = .ok (3, 4) ∧ ValidatePrice "2/4" = .ok (2, 4) := by
  refine ⟨?_, by decide, by decide⟩
  rw [ValidatePrice_of_match _ _ _ (repr_pair_matches a b), (repr_nat_spec a).2,
    (repr_nat_spec b).2]
  have h1 : ¬ ((2 : Int) ^ 128 ≤ (a : Int)) := by
    have : ((a : Int)) < 2 ^ 128 := by exact_mod_cast ha
    omega
  have h2 : ¬ ((2 : Int) ^ 128 ≤ (b : Int)) := by
    have : ((b : Int)) < 2 ^ 128 := by exact_mod_cast hb
    omega
  rw [if_neg h1, if_neg h2]

/-- Witness for C1 at `a = 2`, `b = 4`: the text is `2/4` and the result is the
unreduced pair `(2, 4)`. -/
theorem ValidatePrice_repr_pair_witness :
    toString 2 ++ "/" ++ toString 4 = "2/4" ∧
    ValidatePrice (toString 2 ++ "/" ++ toString 4) = .ok (((2 : Nat) : Int), ((4 : Nat) : Int)) :=
  ⟨by decide, (ValidatePrice_repr_pair 2 4 (by norm_num) (by norm_num)).1⟩

set_option maxRecDepth 100000 in
/-- C2: `ValidatePrice` fails exactly when the text does not match the anchored
pattern `^([0-9]+)/([0-9]+)$` or one of the two captured groups has a value
`≥ 2^128`; every failure is a 400 user error with code `price_invalid` (and an
error result carries neither base nor quote). The six listed texts are
rejected. -/
theorem ValidatePrice_fails_iff (s : String) :
    ((∃ e, ValidatePrice s = .error e) ↔
      (¬ ∃ g1 g2, MatchesPriceRegexp s g1 g2) ∨
      ∃ g1 g2, MatchesPriceRegexp s g1 g2 ∧ (2 ^ 128 ≤ decVal g1 ∨ 2 ^ 128 ≤ decVal g2)) ∧
    (∀ e, ValidatePrice s = .error e → e.status = 400 ∧ e.code = "price_invalid") ∧
    ValidatePrice "3-4" = .error (priceInvalid "3-4") ∧
    ValidatePrice "-1/2" = .error (priceInvalid "-1/2") ∧
    ValidatePrice "/5" = .error (priceInvalid "/5") ∧
    ValidatePrice "5/" = .error (priceInvalid "5/") ∧
    ValidatePrice "340282366920938463463374607431768211456/1" =
      .error (basePriceInvalid "340282366920938463463374607431768211456") ∧
    ValidatePrice "1/340282366920938463463374607431768211456" =
      .error (quotePriceInvalid "340282366920938463463374607431768211456") := by
  refine ⟨?_, ?_, by decide, by decide, by decide, by decide, by decide, by decide⟩
  · by_cases hm : ∃ g1 g2, MatchesPriceRegexp s g1 g2
    · obtain ⟨g1, g2, h⟩ := hm
      have hv := ValidatePrice_of_match s g1 g2 h
      have c1 : (2 : Int) ^ 128 ≤ (decVal g1 : Int) ↔ 2 ^ 128 ≤ decVal g1 := by
        constructor <;> intro h <;> exact_mod_cast h
      have c2 : (2 : Int) ^ 128 ≤ (decVal g2 : Int) ↔ 2 ^ 128 ≤ decVal g2 := by
        constructor <;> intro h <;> exact_mod_cast h
      constructor
      · rintro ⟨e, he⟩
        right
        refine ⟨g1, g2, h, ?_⟩
        rw [hv] at he
        by_cases h1 : (2 : Int) ^ 128 ≤ (decVal g1 : Int)
        · exact Or.inl (c1.mp h1)
        · by_cases h2 : (2 : Int) ^ 128 ≤ (decVal g2 : Int)
          · exact Or.inr (c2.mp h2)
          · rw [if_neg h1, if_neg h2] at he; exact absurd he (by simp)
      · rintro (hno | ⟨k1, k2, hk, hbig⟩)
        · exact absurd ⟨g1, g2, h⟩ hno
        · obtain ⟨e1, e2⟩ := MatchesPriceRegexp_unique s g1 g2 k1 k2 h hk
          subst e1; subst e2
          rw [hv]
          by_cases h1 : (2 : Int) ^ 128 ≤ (decVal g1 : Int)
          · exact ⟨_, by rw [if_pos h1]⟩
          · have h2 : (2 : Int) ^ 128 ≤ (decVal g2 : Int) := by
              rcases hbig with hb | hb
              · exact absurd (c1.mpr hb) h1
              · exact c2.mpr hb
            exact ⟨_, by rw [if_neg h1, if_pos h2]⟩
    · constructor
      · intro _; exact Or.inl hm
      · intro _; exact ⟨_, ValidatePrice_of_no_match s hm⟩
  · intro e he
    by_cases hm : ∃ g1 g2, MatchesPriceRegexp s g1 g2
    · obtain ⟨g1, g2, h⟩ := hm
      rw [ValidatePrice_of_match s g1 g2 h] at he
      split_ifs at he <;> cases he <;> exact ⟨rfl, rfl⟩
    · rw [ValidatePrice_of_no_match s hm] at he
      cases he; exact ⟨rfl, rfl⟩

set_option maxRecDepth 100000 in
/-- C3: on the base-10 representation of an integer `n`, `ValidateAmount`
succeeds if and only if `0 ≤ n < 2^128`, and then returns `n`; otherwise it
returns the 400 user error `amount_invalid`. `0` and `2^128 - 1` are accepted,
`-1` and `2^128` are rejected. -/
theorem ValidateAmount_repr_iff (n : Int) :
    ((∃ a, ValidateAmount (toString n) = .ok a) ↔ 0 ≤ n ∧ n < 2 ^ 128) ∧
    (∀ a, ValidateAmount (toString n) = .ok a → a = n) ∧
    (∀ e, ValidateAmount (toString n) = .error e →
      e = amountInvalid (toString n) ∧ e.status = 400 ∧ e.code = "amount_invalid") ∧
    ValidateAmount "0" = .ok 0 ∧
    ValidateAmount "340282366920938463463374607431768211455" = .ok (2 ^ 128 - 1) ∧
    ValidateAmount "-1" = .error (amountInvalid "-1") ∧
    ValidateAmount "340282366920938463463374607431768211456" =
      .error (amountInvalid "340282366920938463463374607431768211456") := by
  have hv := ValidateAmount_toString n
  refine ⟨?_, ?_, ?_, by decide, by decide, by decide, by decide⟩
  · by_cases hn : 0 ≤ n ∧ n < 2 ^ 128
    · rw [if_pos hn] at hv; exact ⟨fun _ => hn, fun _ => ⟨n, hv⟩⟩
    · rw [if_neg hn] at hv
      exact ⟨fun ⟨a, ha⟩ => by rw [hv] at ha; exact absurd ha (by simp), fun h => absurd h hn⟩
  · intro a ha
    by_cases hn : 0 ≤ n ∧ n < 2 ^ 128
    · rw [if_pos hn] at hv; rw [hv] at ha; cases ha; rfl
    · rw [if_neg hn] at hv; rw [hv] at ha; exact absurd ha (by simp)
  · intro e he
    by_cases hn : 0 ≤ n ∧ n < 2 ^ 128
    · rw [if_pos hn] at hv; rw [hv] at he; exact absurd he (by simp)
    · rw [if_neg hn] at hv; rw [hv] at he; cases he; exact ⟨rfl, rfl, rfl⟩

set_option maxRecDepth 100000 in
/-- C5, as stated, fails: `ValidateAmount` accepts `+5` (value 5) and `-0`
(value 0), neither of which consists solely of decimal digits. -/
theorem ValidateAmount_accepts_sign :
    ValidateAmount "+5" = .ok 5 ∧ ¬ IsDigits "+5".data ∧
    ValidateAmount "-0" = .ok 0 ∧ ¬ IsDigits "-0".data := by
  decide

/-- C5, amended: if `ValidateAmount s` succeeds then `s` is an optional single
sign character followed by a non-empty sequence of decimal digits (no
whitespace, no separator), a leading `-` being accepted only when the digits
denote zero; the returned amount is the base-10 value of the digits and lies in
`[0, 2^128)`. -/
theorem ValidateAmount_ok_shape (s : String) (v : Int) (h : ValidateAmount s = .ok v) :
    ∃ ds, IsDigits ds ∧
      (s.data = ds ∨ s.data = '+' :: ds ∨ (s.data = '-' :: ds ∧ decVal ds = 0)) ∧
      v = decVal ds ∧ 0 ≤ v ∧ v < 2 ^ 128 := by
  unfold ValidateAmount at h
  cases hb : bigSetString10 s with
  | none => rw [hb] at h; exact absurd h (by simp)
  | some a =>
    rw [hb] at h
    by_cases hr : a < 0 ∨ a ≥ MaxAssetAmount
    · simp [hr] at h
    · simp only [hr, if_false] at h
      have hav : a = v := by injection h
      rw [hav] at hb hr
      have hlo : 0 ≤ v := by omega
      have hhi : v < 2 ^ 128 := by
        have : ¬ (v ≥ MaxAssetAmount) := fun x => hr (Or.inr x)
        simp only [MaxAssetAmount] at this; omega
      obtain ⟨ds, hd, hcase⟩ := bigSetString10_some s v hb
      refine ⟨ds, hd, ?_⟩
      rcases hcase with ⟨h1, h2⟩ | ⟨h1, h2⟩ | ⟨h1, h2⟩
      · exact ⟨Or.inl h1, h2, hlo, hhi⟩
      · exact ⟨Or.inr (Or.inl h1), h2, hlo, hhi⟩
      · have hz : decVal ds = 0 := by omega
        exact ⟨Or.inr (Or.inr ⟨h1, hz⟩), by omega, hlo, hhi⟩

set_option maxRecDepth 100000 in
/-- Witness for the amended C5 at the accepted text `+5`. -/
theorem ValidateAmount_ok_shape_witness :
    ValidateAmount "+5" = .ok 5 ∧
    ∃ ds, IsDigits ds ∧
      ("+5".data = ds ∨ "+5".data = '+' :: ds ∨ ("+5".data = '-' :: ds ∧ decVal ds = 0)) ∧
      (5 : Int) = decVal ds ∧ 0 ≤ (5 : Int) ∧ (5 : Int) < 2 ^ 128 :=
  ⟨by decide, ValidateAmount_ok_shape "+5" 5 (by decide)⟩

/-! ## The 8-bit parse -/

theorem foldl_dec_ge (ds : List Char) : ∀ n : Nat,
    n ≤ ds.foldl (fun a c => a * 10 + digitVal c) n := by
  induction ds with
  | nil => intro n; simp
  | cons c cs ih =>
    intro n
    simp only [List.foldl]
    exact le_trans (by omega) (ih (n * 10 + digitVal c))

theorem isDigit_digitVal_lt (c : Char) (h : c.isDigit = true) : digitVal c < 10 := by
  simp only [Char.isDigit, Bool.and_eq_true, decide_eq_true_eq] at h
  have h1 : 48 ≤ c.val.toNat := by
    have := h.1; exact (UInt32.le_def).mp this
  have h2 : c.val.toNat ≤ 57 := by
    have := h.2; exact (UInt32.le_def).mp this
  simp only [digitVal, Char.toNat]
  omega

/-- On digits the loop of `ParseUint` computes the base-10 value as long as it
stays within 8 bits and reports a range error otherwise. -/
theorem parseUintLoop_digits (s0 : String) (ds : List Char)
    (hd : ∀ c ∈ ds, c.isDigit = true) : ∀ n : Nat, n ≤ 255 →
    parseUintLoop s0 n ds =
      if ds.foldl (fun a c => a * 10 + digitVal c) n ≤ 255
      then (ds.foldl (fun a c => a * 10 + digitVal c) n, none)
      else (255, some ⟨"ParseUint", s0, .ErrRange⟩) := by
  induction ds with
  | nil => intro n hn; simp [parseUintLoop, hn]
  | cons c cs ih =>
    intro n hn
    have hc : c.isDigit = true := hd c (by simp)
    have hlt := isDigit_digitVal_lt c hc
    have hcut : ¬ (n ≥ maxUint64 / 10 + 1) := by
      simp only [maxUint64]; omega
    have e1 : n * 10 % 2 ^ 64 = n * 10 := Nat.mod_eq_of_lt (by omega)
    have e2 : (n * 10 + (c.toNat - 48)) % 2 ^ 64 = n * 10 + (c.toNat - 48) := by
      have : c.toNat - 48 < 10 := hlt
      exact Nat.mod_eq_of_lt (by omega)
    have hd10 : ¬ (c.toNat - 48 ≥ 10) := by
      have : c.toNat - 48 < 10 := hlt
      omega
    simp only [parseUintLoop, hc, if_true, hd10, if_false, hcut, e1, e2, List.foldl]
    have hge := foldl_dec_ge cs (n * 10 + digitVal c)
    have hdv : digitVal c = c.toNat - 48 := rfl
    by_cases hbig : n * 10 + (c.toNat - 48) > 2 ^ 8 - 1
    · have h1 : n * 10 + (c.toNat - 48) < n * 10 ∨ n * 10 + (c.toNat - 48) > 2 ^ 8 - 1 :=
        Or.inr hbig
      rw [if_pos h1, if_neg (by omega)]
      rfl
    · have h1 : ¬ (n * 10 + (c.toNat - 48) < n * 10 ∨ n * 10 + (c.toNat - 48) > 2 ^ 8 - 1) := by
        omega
      rw [if_neg h1, ih (fun x hx => hd x (by simp [hx])) _ (by omega)]
      rfl

theorem toInt64_small (x : Nat) (h : x < 2 ^ 63) : toInt64 x = x := by
  simp only [toInt64]; omega

theorem toInt8_small (h : Int) (h0 : 0 ≤ h) (h1 : h ≤ 127) : toInt8 h = h := by
  simp only [toInt8]; omega

/-- The call `ParseUint` on a non-empty digit sequence. -/
theorem ParseUint_digits (ds : List Char) (h : IsDigits ds) :
    ParseUint ds = if decVal ds ≤ 255 then (decVal ds, none)
      else (255, some ⟨"ParseUint", String.mk ds, .ErrRange⟩) := by
  simp only [ParseUint, h.1, if_false]
  exact parseUintLoop_digits (String.mk ds) ds h.2 0 (by omega)

/-- The call `ParseInt` on a plain digit sequence. -/
theorem ParseInt_digits (s : String) (h : IsDigits s.data) :
    ParseInt s = if decVal s.data ≤ 127 then ((decVal s.data : Int), none)
      else (127, some ⟨"ParseInt", s, .ErrRange⟩) := by
  have hu := ParseUint_digits s.data h
  obtain ⟨hne, hd⟩ := h
  obtain ⟨c, cs, hs⟩ := List.exists_cons_of_ne_nil hne
  have hc := isDigit_ne_sign c (hd c (by simp [hs]))
  have hsig : (match s.data with
      | c :: cs => if c = '+' then (false, cs) else if c = '-' then (true, cs)
          else (false, c :: cs)
      | [] => (false, [])) = (false, s.data) := by
    rw [hs]; simp [hc.1, hc.2]
  simp only [ParseInt, hne, if_false, hsig, hu]
  generalize decVal s.data = V
  by_cases hv : V ≤ 127
  · have h255 : V ≤ 255 := by omega
    have h7 : ¬ (V ≥ 2 ^ 7) := by omega
    simp only [h255, hv, if_true, h7, and_false, if_false, Bool.false_eq_true, false_and,
      toInt64_small V (by omega)]
  · have h7 : V ≥ 2 ^ 7 := by omega
    by_cases h255 : V ≤ 255
    · simp only [h255, hv, if_true, if_false, h7, Bool.not_false, and_self]
      norm_num
    · simp only [h255, hv, if_false, Bool.not_false, true_and]
      norm_num

/-- The call `ParseInt` on `-` followed by a digit sequence. -/
theorem ParseInt_neg (s : String) (ds : List Char) (hs : s.data = '-' :: ds)
    (h : IsDigits ds) :
    ParseInt s = if decVal ds ≤ 128 then (-(decVal ds : Int), none)
      else (-128, some ⟨"ParseInt", s, .ErrRange⟩) := by
  have hu := ParseUint_digits ds h
  have hne : s.data ≠ [] := by rw [hs]; simp
  have hsig : (match s.data with
      | c :: cs => if c = '+' then (false, cs) else if c = '-' then (true, cs)
          else (false, c :: cs)
      | [] => (false, [])) = (true, ds) := by
    rw [hs]; simp
  simp only [ParseInt, hne, if_false, hsig, hu]
  generalize decVal ds = V
  by_cases hv : V ≤ 128
  · have h255 : V ≤ 255 := by omega
    have h7 : ¬ (V > 2 ^ 7) := by omega
    simp only [h255, hv, if_true, h7, and_false, if_false, Bool.not_true, Bool.false_eq_true,
      false_and, toInt64_small V (by omega)]
  · have h7 : V > 2 ^ 7 := by omega
    by_cases h255 : V ≤ 255
    · simp only [h255, hv, if_true, if_false, h7, Bool.not_true, Bool.false_eq_true,
        false_and, and_self]
      norm_num
    · simp only [h255, hv, if_false, Bool.not_true, Bool.false_eq_true, false_and]
      norm_num

/-- Whenever `ParseInt` reports no error its result fits in 8 signed bits. -/
theorem ParseInt_ok_range (s : String) (h : (ParseInt s).2 = none) :
    -128 ≤ (ParseInt s).1 ∧ (ParseInt s).1 ≤ 127 := by
  unfold ParseInt at h ⊢
  by_cases hne : s.data = []
  · simp [hne] at h
  simp only [hne, if_false] at h ⊢
  generalize (match s.data with
      | c :: cs => if c = '+' then (false, cs) else if c = '-' then (true, cs)
          else (false, c :: cs)
      | [] => (false, [])) = sg at h ⊢
  obtain ⟨neg, r⟩ := sg
  generalize ParseUint r = pu at h ⊢
  obtain ⟨un, err⟩ := pu
  have key : ∀ (p : Int × Option NumError),
      p = (if !neg ∧ un ≥ 2 ^ 7 then (((2 ^ 7 : Nat) : Int) - 1, some ⟨"ParseInt", s, .ErrRange⟩)
        else if neg ∧ un > 2 ^ 7 then (-((2 ^ 7 : Nat) : Int), some ⟨"ParseInt", s, .ErrRange⟩)
        else (if neg then -(toInt64 un) else toInt64 un, none)) →
      p.2 = none → -128 ≤ p.1 ∧ p.1 ≤ 127 := by
    intro p hp h2
    by_cases c1 : !neg ∧ un ≥ 2 ^ 7
    · rw [if_pos c1] at hp; rw [hp] at h2; exact absurd h2 (by simp)
    by_cases c2 : neg ∧ un > 2 ^ 7
    · rw [if_neg c1, if_pos c2] at hp; rw [hp] at h2; exact absurd h2 (by simp)
    rw [if_neg c1, if_neg c2] at hp
    rw [hp]
    cases neg with
    | true =>
      have hu : un ≤ 128 := by
        have : ¬ (un > 2 ^ 7) := fun x => c2 ⟨rfl, x⟩
        omega
      simp only [if_true, toInt64_small un (by omega)]
      omega
    | false =>
      have hu : un < 128 := by
        have : ¬ (un ≥ 2 ^ 7) := fun x => c1 ⟨rfl, x⟩
        omega
      simp only [Bool.false_eq_true, if_false, toInt64_small un (by omega)]
      omega
  rcases err with _ | ⟨f, nm, k⟩
  · exact key _ rfl h
  · cases k with
    | ErrSyntax => simp at h
    | ErrRange => exact key _ rfl h

/-- Every result of `ValidateHop` is either the parsed value or the
`hop_invalid` error carrying the parse error as cause. -/
theorem ValidateHop_cases (s : String) :
    (ValidateHop s = .ok (toInt8 (ParseInt s).1) ∧ (ParseInt s).2 = none ∧ 0 ≤ (ParseInt s).1) ∨
    ValidateHop s = .error (hopInvalid s (ParseInt s).2) := by
  unfold ValidateHop
  by_cases h : (ParseInt s).2 ≠ none ∨ (ParseInt s).1 < 0
  · right; simp only [h, if_true]
  · left
    refine ⟨by simp only [h, if_false], ?_, ?_⟩
    · by_contra hc; exact h (Or.inl hc)
    · by_contra hc; exact h (Or.inr (by omega))

/-- The result of `ValidateHop` on the base-10 representation of an integer. -/
theorem ValidateHop_toString (n : Int) :
    ValidateHop (toString n) =
      if 0 ≤ n ∧ n ≤ 127 then .ok n
      else .error (hopInvalid (toString n) (ParseInt (toString n)).2) := by
  cases n with
  | ofNat m =>
    have hs : toString (Int.ofNat m) = toString m := rfl
    obtain ⟨hd, hv⟩ := repr_nat_spec m
    have hp := ParseInt_digits (toString m) hd
    rw [hv] at hp
    rw [hs]
    simp only [ValidateHop, Int.ofNat_eq_coe]
    by_cases hm : m ≤ 127
    · rw [if_pos hm] at hp
      have c : (0 : Int) ≤ (m : Int) ∧ (m : Int) ≤ 127 := by omega
      have c2 : ¬ ((none : Option NumError) ≠ none ∨ (m : Int) < 0) := by
        intro h; rcases h with h | h
        · exact h rfl
        · omega
      simp only [hp, c2, if_false, c, and_self, if_true]
      rw [toInt8_small _ c.1 c.2]
    · rw [if_neg hm] at hp
      have c : ¬ ((0 : Int) ≤ (m : Int) ∧ (m : Int) ≤ 127) := by omega
      simp only [hp, c, if_false]
      simp
  | negSucc m =>
    have hs : toString (Int.negSucc m) = "-" ++ toString (m + 1) := rfl
    obtain ⟨hd, hv⟩ := repr_nat_spec (m + 1)
    have hdata : (toString (Int.negSucc m)).data = '-' :: (toString (m + 1)).data := by
      rw [hs]; simp [String.data_append]
    have hneg : ¬ ((0 : Int) ≤ Int.negSucc m ∧ Int.negSucc m ≤ 127) := by
      intro h; have h1 := h.1; have h2 := Int.negSucc_lt_zero m; omega
    have hp := ParseInt_neg _ _ hdata hd
    rw [hv] at hp
    rw [if_neg hneg]
    rcases ValidateHop_cases (toString (Int.negSucc m)) with ⟨_, h2, h3⟩ | h
    · exfalso
      rw [hp] at h2 h3
      by_cases hm : m + 1 ≤ 128
      · rw [if_pos hm] at h3; simp only at h3; omega
      · rw [if_neg hm] at h2; simp at h2
    · exact h

set_option maxRecDepth 100000 in
/-- C6: the accepted range of `ValidateHop` is exactly `[0, 127]`: on the
base-10 representation of an integer `n` it succeeds if and only if
`0 ≤ n ≤ 127`, and then returns `n`; on every text `s` on which it succeeds
the returned `int8` lies in `[0, 127]` and equals the integer produced by the
8-bit signed parse, so the `int8` conversion never truncates. `0` gives 0,
`127` gives 127, and `-1` and `128` fail with the 400 user error
`hop_invalid`. -/
theorem ValidateHop_range (n : Int) (s : String) :
    ((∃ v, ValidateHop (toString n) = .ok v) ↔ 0 ≤ n ∧ n ≤ 127) ∧
    (∀ v, ValidateHop (toString n) = .ok v → v = n) ∧
    (∀ v, ValidateHop s = .ok v →
      0 ≤ v ∧ v ≤ 127 ∧ (ParseInt s).2 = none ∧ v = (ParseInt s).1) ∧
    (∀ e, ValidateHop s = .error e → e.status = 400 ∧ e.code = "hop_invalid") ∧
    ValidateHop "0" = .ok 0 ∧ ValidateHop "127" = .ok 127 ∧
    ValidateHop "-1" = .error (hopInvalid "-1" none) ∧
    ValidateHop "128" = .error (hopInvalid "128" (some ⟨"ParseInt", "128", .ErrRange⟩)) := by
  have hv := ValidateHop_toString n
  refine ⟨?_, ?_, ?_, ?_, by decide, by decide, by decide, by decide⟩
  · by_cases hn : 0 ≤ n ∧ n ≤ 127
    · rw [if_pos hn] at hv; exact ⟨fun _ => hn, fun _ => ⟨n, hv⟩⟩
    · rw [if_neg hn] at hv
      exact ⟨fun ⟨a, ha⟩ => by rw [hv] at ha; exact absurd ha (by simp), fun h => absurd h hn⟩
  · intro a ha
    by_cases hn : 0 ≤ n ∧ n ≤ 127
    · rw [if_pos hn] at hv; rw [hv] at ha; cases ha; rfl
    · rw [if_neg hn] at hv; rw [hv] at ha; exact absurd ha (by simp)
  · intro v hok
    rcases ValidateHop_cases s with ⟨h1, h2, h3⟩ | h
    · rw [h1] at hok
      have hr := ParseInt_ok_range s h2
      have hsmall := toInt8_small (ParseInt s).1 h3 hr.2
      have hvv : toInt8 (ParseInt s).1 = v := by injection hok
      rw [hsmall] at hvv
      exact ⟨by omega, by omega, h2, hvv.symm⟩
    · rw [h] at hok; exact absurd hok (by simp)
  · intro e he
    rcases ValidateHop_cases s with ⟨h1, _, _⟩ | h
    · rw [h1] at he; exact absurd he (by simp)
    · rw [h] at he; cases he; exact ⟨rfl, rfl⟩

/-! ## Secrets and paths -/

theorem utf8ByteSize_go_ascii (l : List Char) (h : ∀ c ∈ l, c.toNat < 128) :
    String.utf8ByteSize.go l = l.length := by
  induction l with
  | nil => rfl
  | cons c cs ih =>
    have hc : c.toNat < 128 := h c (by simp)
    have h1 : c.utf8Size = 1 := by
      have hle : c.val ≤ 127 := by
        apply (UInt32.le_def).mpr
        show c.val.toNat ≤ 127
        have : c.val.toNat = c.toNat := rfl
        omega
      simp [Char.utf8Size, hle]
    simp only [String.utf8ByteSize.go, ih (fun x hx => h x (by simp [hx])), h1, List.length_cons]

/-- The result of `ValidateSecret`. -/
theorem ValidateSecret_eq (s : String) :
    ValidateSecret s = if s.utf8ByteSize = 16 then .ok s else .error (secretInvalid s) := by
  unfold ValidateSecret
  by_cases h : s.utf8ByteSize = 16
  · simp [h]
  · simp [h]

set_option maxRecDepth 100000 in
/-- C7, as stated, fails: a string of 16 two-byte characters is rejected and a
string of 8 two-byte characters is accepted, because `len` counts bytes. -/
theorem ValidateSecret_counts_bytes :
    "éééééééééééééééé".length = 16 ∧
    ValidateSecret "éééééééééééééééé" = .error (secretInvalid "éééééééééééééééé") ∧
    "éééééééé".length = 8 ∧
    ValidateSecret "éééééééé" = .ok "éééééééé" := by
  decide

/-- C7, amended: `ValidateSecret s` succeeds if and only if `s` is exactly 16
bytes long (Go's `len`, the length of the UTF-8 encoding), whatever the bytes
are, and then returns `s` unchanged; every other string is rejected with the
400 user error `secret_invalid`. For a string of ASCII characters this is the
same as having exactly 16 characters, so 15- and 17-character ASCII strings are
rejected. -/
theorem ValidateSecret_iff_bytes (s : String) :
    ((∃ r, ValidateSecret s = .ok r) ↔ s.utf8ByteSize = 16) ∧
    (∀ r, ValidateSecret s = .ok r → r = s) ∧
    (∀ e, ValidateSecret s = .error e →
      e = secretInvalid s ∧ e.status = 400 ∧ e.code = "secret_invalid") ∧
    ((∀ c ∈ s.data, c.toNat < 128) →
      ((∃ r, ValidateSecret s = .ok r) ↔ s.length = 16)) := by
  have hv := ValidateSecret_eq s
  have iff1 : (∃ r, ValidateSecret s = .ok r) ↔ s.utf8ByteSize = 16 := by
    by_cases h : s.utf8ByteSize = 16
    · rw [if_pos h] at hv; exact ⟨fun _ => h, fun _ => ⟨s, hv⟩⟩
    · rw [if_neg h] at hv
      exact ⟨fun ⟨a, ha⟩ => by rw [hv] at ha; exact absurd ha (by simp), fun x => absurd x h⟩
  refine ⟨iff1, ?_, ?_, ?_⟩
  · intro r hr
    by_cases h : s.utf8ByteSize = 16
    · rw [if_pos h] at hv; rw [hv] at hr; cases hr; rfl
    · rw [if_neg h] at hv; rw [hv] at hr; exact absurd hr (by simp)
  · intro e he
    by_cases h : s.utf8ByteSize = 16
    · rw [if_pos h] at hv; rw [hv] at he; exact absurd he (by simp)
    · rw [if_neg h] at hv; rw [hv] at he; cases he; exact ⟨rfl, rfl, rfl⟩
  · intro hascii
    have hlen : s.utf8ByteSize = s.length := by
      cases s with
      | mk l => exact utf8ByteSize_go_ascii l hascii
    rw [iff1, hlen]

theorem ValidatePath_loop_all_ok {ε : Type} (normalize : String → Except ε (String × String))
    (path : List String) (h : ∀ o ∈ path, ∃ r, normalize o = .ok r) :
    ValidatePath.loop normalize path = none := by
  induction path with
  | nil => rfl
  | cons o rest ih =>
    obtain ⟨r, hr⟩ := h o (by simp)
    simp only [ValidatePath.loop, hr]
    exact ih (fun x hx => h x (by simp [hx]))

theorem ValidatePath_loop_first_bad {ε : Type}
    (normalize : String → Except ε (String × String))
    (pre : List String) (bad : String) (post : List String) (err : ε)
    (hpre : ∀ o ∈ pre, ∃ r, normalize o = .ok r) (hbad : normalize bad = .error err) :
    ValidatePath.loop normalize (pre ++ bad :: post) = some (pathInvalid bad err) := by
  induction pre with
  | nil => simp only [List.nil_append, ValidatePath.loop, hbad]
  | cons o rest ih =>
    obtain ⟨r, hr⟩ := hpre o (by simp)
    simp only [List.cons_append, ValidatePath.loop, hr]
    exact ih (fun x hx => hpre x (by simp [hx]))

theorem exists_first_bad {ε : Type} (normalize : String → Except ε (String × String))
    (path : List String) (h : ¬ ∀ o ∈ path, ∃ r, normalize o = .ok r) :
    ∃ pre bad post err, path = pre ++ bad :: post ∧
      (∀ o ∈ pre, ∃ r, normalize o = .ok r) ∧ normalize bad = .error err := by
  induction path with
  | nil => exact absurd (by simp) h
  | cons o rest ih =>
    cases ho : normalize o with
    | error err => exact ⟨[], o, rest, err, rfl, by simp, ho⟩
    | ok r =>
      have hrest : ¬ ∀ x ∈ rest, ∃ r, normalize x = .ok r := by
        intro hall
        apply h
        intro x hx
        rcases List.mem_cons.mp hx with hx | hx
        · exact ⟨r, by rw [hx, ho]⟩
        · exact hall x hx
      obtain ⟨pre, bad, post, err, h1, h2, h3⟩ := ih hrest
      refine ⟨o :: pre, bad, post, err, by rw [h1]; rfl, ?_, h3⟩
      intro x hx
      rcases List.mem_cons.mp hx with hx | hx
      · exact ⟨r, by rw [hx, ho]⟩
      · exact h2 x hx

/-- C4: for an arbitrary normalizer, if it succeeds on every element then
`ValidatePath` returns the input list itself (same elements, order, length,
duplicates kept); otherwise it returns the 400 user error `path_invalid` whose
message names the first element, in list order, that the normalizer rejects,
also when all earlier elements are well-formed (for `[id1, id2, bad]` the error
cites `bad`). The empty path is accepted. -/
theorem ValidatePath_spec {ε : Type} (normalize : String → Except ε (String × String))
    (path : List String) :
    ((∀ o ∈ path, ∃ r, normalize o = .ok r) → ValidatePath normalize path = .ok path) ∧
    ((¬ ∀ o ∈ path, ∃ r, normalize o = .ok r) →
      ∃ pre bad post err, path = pre ++ bad :: post ∧
        (∀ o ∈ pre, ∃ r, normalize o = .ok r) ∧ normalize bad = .error err ∧
        ValidatePath normalize path = .error (pathInvalid bad err)) ∧
    (∀ pre bad post err, path = pre ++ bad :: post →
      (∀ o ∈ pre, ∃ r, normalize o = .ok r) → normalize bad = .error err →
      ValidatePath normalize path = .error (pathInvalid bad err)) ∧
    (∀ id1 id2 bad r1 r2 err, normalize id1 = .ok r1 → normalize id2 = .ok r2 →
      normalize bad = .error err →
      ValidatePath normalize [id1, id2, bad] = .error (pathInvalid bad err)) ∧
    (∀ (bad : String) (err : ε),
      (pathInvalid bad err).status = 400 ∧ (pathInvalid bad err).code = "path_invalid" ∧
      (pathInvalid bad err).cause = some err ∧
      (pathInvalid bad err).message =
        "The offer id you provided in \x60path[]\x60 is invalid: " ++ bad ++
        ". Offer ids must have the form kgodel@princetown.edu[offer_*]") ∧
    ValidatePath normalize [] = .ok [] := by
  have first : ∀ pre bad post err, path = pre ++ bad :: post →
      (∀ o ∈ pre, ∃ r, normalize o = .ok r) → normalize bad = .error err →
      ValidatePath normalize path = .error (pathInvalid bad err) := by
    intro pre bad post err hp hpre hbad
    simp only [ValidatePath, hp, ValidatePath_loop_first_bad normalize pre bad post err hpre hbad]
  refine ⟨?_, ?_, first, ?_, fun bad err => ⟨rfl, rfl, rfl, rfl⟩, rfl⟩
  · intro h
    simp only [ValidatePath, ValidatePath_loop_all_ok normalize path h]
  · intro h
    obtain ⟨pre, bad, post, err, h1, h2, h3⟩ := exists_first_bad normalize path h
    exact ⟨pre, bad, post, err, h1, h2, h3, first pre bad post err h1 h2 h3⟩
  · intro id1 id2 bad r1 r2 err h1 h2 h3
    simp only [ValidatePath, ValidatePath.loop, h1, h2, h3]

/-! ## Base64 -/

theorem rawURLEncode_length : ∀ (n : Nat) (src : List UInt8), src.length = n →
    (rawURLEncode src).length = (4 * n + 2) / 3 := by
  intro n
  induction n using Nat.strong_induction_on with
  | _ n ih =>
    intro src hlen
    match src, hlen with
    | [], hlen => simp at hlen; subst hlen; rfl
    | [_], hlen => simp at hlen; subst hlen; rfl
    | [_, _], hlen => simp at hlen; subst hlen; rfl
    | b0 :: b1 :: b2 :: rest, hlen =>
      simp only [List.length_cons] at hlen
      simp only [rawURLEncode, List.length_cons]
      rw [ih rest.length (by omega) rest rfl]
      omega

theorem encodeChar_alphabet (i : Nat) (h : i < 64) : IsBase64URLChar (encodeChar i) := by
  unfold IsBase64URLChar
  interval_cases i <;> decide

theorem and_63_lt (x : Nat) : x &&& 0x3F < 64 := by
  have := @Nat.and_le_right x 0x3F
  omega

theorem rawURLEncode_alphabet : ∀ (n : Nat) (src : List UInt8), src.length = n →
    ∀ c ∈ rawURLEncode src, IsBase64URLChar c := by
  intro n
  induction n using Nat.strong_induction_on with
  | _ n ih =>
    intro src hlen c hc
    match src, hlen with
    | [], _ => simp [rawURLEncode] at hc
    | [_], _ =>
      simp only [rawURLEncode, List.mem_cons, List.mem_singleton, List.not_mem_nil,
        or_false] at hc
      rcases hc with rfl | rfl <;> exact encodeChar_alphabet _ (and_63_lt _)
    | [_, _], _ =>
      simp only [rawURLEncode, List.mem_cons, List.mem_singleton, List.not_mem_nil,
        or_false] at hc
      rcases hc with rfl | rfl | rfl <;> exact encodeChar_alphabet _ (and_63_lt _)
    | b0 :: b1 :: b2 :: rest, hlen =>
      simp only [List.length_cons] at hlen
      simp only [rawURLEncode, List.mem_cons] at hc
      rcases hc with rfl | rfl | rfl | rfl | hc
      · exact encodeChar_alphabet _ (and_63_lt _)
      · exact encodeChar_alphabet _ (and_63_lt _)
      · exact encodeChar_alphabet _ (and_63_lt _)
      · exact encodeChar_alphabet _ (and_63_lt _)
      · exact ih rest.length (by omega) rest rfl c hc

theorem IsBase64URLChar_ne_pad (c : Char) (h : IsBase64URLChar c) : c ≠ '=' := by
  rintro rfl
  revert h
  unfold IsBase64URLChar
  decide

theorem decodeChar_encodeChar (i : Nat) (h : i < 64) : decodeChar (encodeChar i) = some i := by
  interval_cases i <;> decide

theorem and_63 (x : Nat) : x &&& 0x3F = x % 64 := Nat.and_pow_two_sub_one_eq_mod x 6

theorem lor_eq_add (k c b : Nat) (hb : b < 2 ^ k) : c * 2 ^ k ||| b = c * 2 ^ k + b := by
  rw [Nat.mul_comm]; exact (Nat.mul_add_lt_is_or hb c).symm

theorem uint8_ofNat_eq (b : UInt8) (n : Nat) (h : n % 256 = b.toNat) : UInt8.ofNat n = b := by
  apply UInt8.eq_of_toBitVec_eq
  apply BitVec.eq_of_toNat_eq
  show (BitVec.ofNat 8 n).toNat = b.toNat
  rw [BitVec.toNat_ofNat]; exact h

theorem pack3 (a b c : Nat) (hb : b < 256) (hc : c < 256) :
    a <<< 16 ||| b <<< 8 ||| c = a * 65536 + b * 256 + c := by
  have h1 : a <<< 16 ||| b <<< 8 = (a * 256 + b) * 2 ^ 8 := by
    rw [Nat.shiftLeft_eq, Nat.shiftLeft_eq]
    have : a * 2 ^ 16 = (a * 256) * 2 ^ 8 := by ring
    rw [this]
    have e := lor_eq_add 16 a (b * 2 ^ 8) (by omega)
    have : a * 256 * 2 ^ 8 = a * 2 ^ 16 := by ring
    rw [this, e]; ring
  rw [h1, lor_eq_add 8 _ c (by omega)]; ring

theorem pack2 (a b : Nat) (hb : b < 64) :
    a <<< 18 ||| b <<< 12 = a * 262144 + b * 4096 := by
  rw [Nat.shiftLeft_eq, Nat.shiftLeft_eq, lor_eq_add 18 a (b * 2 ^ 12) (by omega)]
  omega

theorem pack3s (a b c : Nat) (hb : b < 64) (hc : c < 64) :
    a <<< 18 ||| b <<< 12 ||| c <<< 6 = a * 262144 + b * 4096 + c * 64 := by
  rw [pack2 a b hb, Nat.shiftLeft_eq]
  have h : a * 262144 + b * 4096 = (a * 64 + b) * 2 ^ 12 := by omega
  rw [h, lor_eq_add 12 _ (c * 2 ^ 6) (by omega)]

theorem pack4 (a b c d : Nat) (hb : b < 64) (hc : c < 64) (hd : d < 64) :
    a <<< 18 ||| b <<< 12 ||| c <<< 6 ||| d = a * 262144 + b * 4096 + c * 64 + d := by
  rw [pack3s a b c hb hc]
  have h : a * 262144 + b * 4096 + c * 64 = (a * 4096 + b * 64 + c) * 2 ^ 6 := by omega
  rw [h, lor_eq_add 6 _ d (by omega)]

theorem sextet (v k : Nat) : v >>> k &&& 0x3F = v / 2 ^ k % 64 := by
  rw [and_63, Nat.shiftRight_eq_div_pow]

/-- Decoding the encoding of a byte sequence gives the sequence back. -/
theorem rawURLDecode_encode : ∀ (n : Nat) (src : List UInt8), src.length = n →
    rawURLDecode (rawURLEncode src) = some src := by
  intro n
  induction n using Nat.strong_induction_on with
  | _ n ih =>
    intro src hlen
    match src, hlen with
    | [], _ => rfl
    | [b0], _ =>
      have h0 : b0.toNat < 256 := b0.toBitVec.isLt
      have m : ∀ x : Nat, x % 64 < 64 := fun x => Nat.mod_lt _ (by decide)
      simp only [rawURLEncode, rawURLDecode, sextet, decodeChar_encodeChar _ (m _)]
      rw [pack2 _ _ (m _)]
      congr 2
      apply uint8_ofNat_eq
      rw [Nat.shiftLeft_eq, Nat.shiftRight_eq_div_pow]
      omega
    | [b0, b1], _ =>
      have h0 : b0.toNat < 256 := b0.toBitVec.isLt
      have h1 : b1.toNat < 256 := b1.toBitVec.isLt
      have m : ∀ x : Nat, x % 64 < 64 := fun x => Nat.mod_lt _ (by decide)
      have hv : b0.toNat <<< 16 ||| b1.toNat <<< 8 = b0.toNat * 65536 + b1.toNat * 256 := by
        have := pack3 b0.toNat b1.toNat 0 h1 (by decide)
        simpa using this
      simp only [rawURLEncode, rawURLDecode, sextet, decodeChar_encodeChar _ (m _), hv]
      rw [pack3s _ _ _ (m _) (m _)]
      congr 2
      · apply uint8_ofNat_eq
        rw [Nat.shiftRight_eq_div_pow]
        omega
      · congr 1
        apply uint8_ofNat_eq
        rw [Nat.shiftRight_eq_div_pow]
        omega
    | b0 :: b1 :: b2 :: rest, hlen =>
      have h0 : b0.toNat < 256 := b0.toBitVec.isLt
      have h1 : b1.toNat < 256 := b1.toBitVec.isLt
      have h2 : b2.toNat < 256 := b2.toBitVec.isLt
      have m : ∀ x : Nat, x % 64 < 64 := fun x => Nat.mod_lt _ (by decide)
      simp only [List.length_cons] at hlen
      have hrest := ih rest.length (by omega) rest rfl
      have m0 : ∀ x : Nat, x &&& 0x3F = x / 2 ^ 0 % 64 := by
        intro x; rw [and_63]; simp
      simp only [rawURLEncode, rawURLDecode, sextet, pack3 _ _ _ h1 h2]
      rw [m0]
      simp only [decodeChar_encodeChar _ (m _), hrest]
      rw [pack4 _ _ _ _ (m _) (m _) (m _)]
      congr 2
      · apply uint8_ofNat_eq
        rw [Nat.shiftRight_eq_div_pow]
        omega
      · congr 1
        · apply uint8_ofNat_eq
          rw [Nat.shiftRight_eq_div_pow]
          omega
        · congr 1
          apply uint8_ofNat_eq
          omega

/-- The encoder is injective: the text determines the bytes. -/
theorem rawURLEncode_injective (a b : List UInt8) (h : rawURLEncode a = rawURLEncode b) :
    a = b := by
  have ha := rawURLDecode_encode a.length a rfl
  have hb := rawURLDecode_encode b.length b rfl
  rw [h, hb] at ha
  exact (Option.some.inj ha).symm

/-! ## Users -/

theorem CreateUser_of_keys {ε : Type} (env : Env ε) (username email : String)
    (k1 k2 : List UInt8)
    (h1 : env.scryptKey env.randStr1 env.newToken 16384 8 1 64 = .ok k1)
    (h2 : env.scryptKey env.randStr2 env.newToken 16384 8 1 16 = .ok k2) :
    CreateUser env username email =
      match env.namedExecInsert (insertedUser env username email k1 k2) with
      | some err => (.error (classifyInsertError env.pqCodeName err),
          [insertedUser env username email k1 k2])
      | none => (.ok (insertedUser env username email k1 k2),
          [insertedUser env username email k1 k2]) := by
  simp only [CreateUser, SecretByteLen, PasswordByteLen, h1, h2, insertedUser]

theorem CreateUser_of_secret_error {ε : Type} (env : Env ε) (username email : String)
    (err : ε) (h1 : env.scryptKey env.randStr1 env.newToken 16384 8 1 64 = .error err) :
    CreateUser env username email = (.error (.derivation err), []) := by
  simp only [CreateUser, SecretByteLen, h1]

theorem CreateUser_of_password_error {ε : Type} (env : Env ε) (username email : String)
    (k1 : List UInt8) (err : ε)
    (h1 : env.scryptKey env.randStr1 env.newToken 16384 8 1 64 = .ok k1)
    (h2 : env.scryptKey env.randStr2 env.newToken 16384 8 1 16 = .error err) :
    CreateUser env username email = (.error (.derivation err), []) := by
  simp only [CreateUser, SecretByteLen, PasswordByteLen, h1, h2]

/-- Every run of `CreateUser` is one of: a failed derivation without any
`INSERT`, or both derivations succeeding followed by exactly one `INSERT`. -/
theorem CreateUser_cases {ε : Type} (env : Env ε) (username email : String) :
    (∃ err, CreateUser env username email = (.error (.derivation err), [])) ∨
    ∃ k1 k2, env.scryptKey env.randStr1 env.newToken 16384 8 1 64 = .ok k1 ∧
      env.scryptKey env.randStr2 env.newToken 16384 8 1 16 = .ok k2 ∧
      CreateUser env username email =
        match env.namedExecInsert (insertedUser env username email k1 k2) with
        | some err => (.error (classifyInsertError env.pqCodeName err),
            [insertedUser env username email k1 k2])
        | none => (.ok (insertedUser env username email k1 k2),
            [insertedUser env username email k1 k2]) := by
  cases h1 : env.scryptKey env.randStr1 env.newToken 16384 8 1 64 with
  | error err => exact Or.inl ⟨err, CreateUser_of_secret_error env username email err h1⟩
  | ok k1 =>
    cases h2 : env.scryptKey env.randStr2 env.newToken 16384 8 1 16 with
    | error err =>
      exact Or.inl ⟨err, CreateUser_of_password_error env username email k1 err h1 h2⟩
    | ok k2 => exact Or.inr ⟨k1, k2, rfl, rfl, CreateUser_of_keys env username email k1 k2 h1 h2⟩

theorem classifyInsertError_unique_iff {ε : Type} (pqCodeName : String → String)
    (e : StoreError) :
    ((classifyInsertError pqCodeName e : ModelError ε) = .ErrUniqueConstraintViolation e ↔
      IsUniqueViolation pqCodeName e) ∧
    (¬ IsUniqueViolation pqCodeName e →
      (classifyInsertError pqCodeName e : ModelError ε) = .store e) := by
  unfold IsUniqueViolation
  cases e with
  | pqError code =>
    by_cases h : pqCodeName code = "unique_violation"
    · simp [classifyInsertError, h]
    · simp [classifyInsertError, h]
  | sqliteError code ext =>
    by_cases h : ext = sqlite3ErrConstraintUnique
    · simp [classifyInsertError, h]
    · simp [classifyInsertError, h]
  | other msg => simp [classifyInsertError]

/-- C8: after `RollPassword`, the fields `Secret`, `Username`, `Email`, `Token`,
`Created`, `Status` and `MintToken` equal their values before the call,
whatever the key derivation returns; when the derivation (fresh passphrase,
salt the user token, N=16384, r=8, p=1, 16 bytes) succeeds, `Password` becomes
the unpadded base64url encoding of the derived key and no error is returned;
when it fails, the error is returned and `Password` is unchanged too. -/
theorem RollPassword_frame {ε : Type} (scryptKey : ScryptKey ε) (randStr : String)
    (u : User) :
    (u.RollPassword scryptKey randStr).1.Secret = u.Secret ∧
    (u.RollPassword scryptKey randStr).1.Username = u.Username ∧
    (u.RollPassword scryptKey randStr).1.Email = u.Email ∧
    (u.RollPassword scryptKey randStr).1.Token = u.Token ∧
    (u.RollPassword scryptKey randStr).1.Created = u.Created ∧
    (u.RollPassword scryptKey randStr).1.Status = u.Status ∧
    (u.RollPassword scryptKey randStr).1.MintToken = u.MintToken ∧
    (∀ h, scryptKey randStr u.Token 16384 8 1 16 = .ok h →
      (u.RollPassword scryptKey randStr).1.Password = String.mk (rawURLEncode h) ∧
      (u.RollPassword scryptKey randStr).2 = none) ∧
    (∀ err, scryptKey randStr u.Token 16384 8 1 16 = .error err →
      (u.RollPassword scryptKey randStr).2 = some (.derivation err) ∧
      (u.RollPassword scryptKey randStr).1 = u) := by
  cases hk : scryptKey randStr u.Token 16384 8 1 16 with
  | error err =>
    have hr : u.RollPassword scryptKey randStr = (u, some (.derivation err)) := by
      simp only [User.RollPassword, PasswordByteLen, hk]
    rw [hr]
    refine ⟨rfl, rfl, rfl, rfl, rfl, rfl, rfl, ?_, ?_⟩
    · intro h hh; exact absurd hh (by simp)
    · intro e he; cases he; exact ⟨rfl, rfl⟩
  | ok h =>
    have hr : u.RollPassword scryptKey randStr =
        ({ u with Password := String.mk (rawURLEncode h) }, none) := by
      simp only [User.RollPassword, PasswordByteLen, hk]
    rw [hr]
    refine ⟨rfl, rfl, rfl, rfl, rfl, rfl, rfl, ?_, ?_⟩
    · intro h2 hh; cases hh; exact ⟨rfl, rfl⟩
    · intro e he; exact absurd he (by simp)

/-- C9: when the single `INSERT` of `CreateUser` returns an error `e`,
`CreateUser` returns no user; the returned error is
`ErrUniqueConstraintViolation` with cause `e` if and only if `e` is a
PostgreSQL error named `unique_violation` or a SQLite error with extended code
`ErrConstraintUnique`, and for every other `e` it is `e` itself. A user is
returned only when the insert, made once with that user, reports no error. -/
theorem CreateUser_insert_error {ε : Type} (env : Env ε) (username email : String) :
    (∀ row e, (CreateUser env username email).2 = [row] →
      env.namedExecInsert row = some e →
      ((CreateUser env username email).1 = .error (.ErrUniqueConstraintViolation e) ↔
        IsUniqueViolation env.pqCodeName e) ∧
      (¬ IsUniqueViolation env.pqCodeName e →
        (CreateUser env username email).1 = .error (.store e)) ∧
      (∀ u, (CreateUser env username email).1 ≠ .ok u)) ∧
    (∀ u, (CreateUser env username email).1 = .ok u →
      (CreateUser env username email).2 = [u] ∧ env.namedExecInsert u = none) ∧
    (CreateUser env username email).2.length ≤ 1 := by
  rcases CreateUser_cases env username email with ⟨err, hc⟩ | ⟨k1, k2, _, _, hc⟩
  · rw [hc]
    refine ⟨?_, ?_, by simp⟩
    · intro row e hrow; exact absurd hrow (by simp)
    · intro u hu; exact absurd hu (by simp)
  · cases hins : env.namedExecInsert (insertedUser env username email k1 k2) with
    | none =>
      rw [hins] at hc
      rw [hc]
      refine ⟨?_, ?_, by simp⟩
      · intro row e hrow hrow2
        have : insertedUser env username email k1 k2 = row := by simpa using hrow
        rw [← this, hins] at hrow2
        exact absurd hrow2 (by simp)
      · intro u hu
        have : insertedUser env username email k1 k2 = u := by injection hu
        rw [← this]
        exact ⟨rfl, hins⟩
    | some e0 =>
      rw [hins] at hc
      rw [hc]
      refine ⟨?_, ?_, by simp⟩
      · intro row e hrow hrow2
        have : insertedUser env username email k1 k2 = row := by simpa using hrow
        rw [← this, hins] at hrow2
        have he : e0 = e := by injection hrow2
        subst he
        have hcl := @classifyInsertError_unique_iff ε env.pqCodeName e0
        refine ⟨?_, ?_, ?_⟩
        · constructor
          · intro h; exact hcl.1.mp (by injection h)
          · intro h; exact congrArg Except.error (hcl.1.mpr h)
        · intro h; exact congrArg Except.error (hcl.2 h)
        · intro u hu; exact absurd hu (by simp)
      · intro u hu; exact absurd hu (by simp)

set_option maxRecDepth 100000 in
/-- Witness for C9: in the sample environment whose store answers the `INSERT`
with the PostgreSQL error `23505` (`unique_violation`), `CreateUser` made one
insert and returns `ErrUniqueConstraintViolation` carrying that error. -/
theorem CreateUser_insert_error_witness :
    (CreateUser sampleEnvConflict "alice" "a@x.com").2 =
      [insertedUser sampleEnvConflict "alice" "a@x.com"
        (List.replicate 64 0) (List.replicate 16 0)] ∧
    (CreateUser sampleEnvConflict "alice" "a@x.com").1 =
      .error (.ErrUniqueConstraintViolation (.pqError "23505")) :=
  ⟨by decide,
   ((CreateUser_insert_error sampleEnvConflict "alice" "a@x.com").1
      (insertedUser sampleEnvConflict "alice" "a@x.com"
        (List.replicate 64 0) (List.replicate 16 0))
      (.pqError "23505") (by decide) rfl).1.mpr (Or.inl ⟨"23505", rfl, by decide⟩)⟩

/-- C10: when both key derivations and the insert succeed, the user returned by
`CreateUser` has `Status = Unverified`, the given `Username` and `Email`, no
`MintToken`, `Secret` the unpadded base64url encoding of the 64-byte key of
the first derivation and `Password` that of the 16-byte key of the second,
each derivation with N=16384, r=8, p=1, salt the user token and its own
passphrase; decoding `Secret` and `Password` gives the two keys back, and no
other byte sequence encodes to them; `Secret` has 86 characters and `Password`
22, all of the alphabet A-Z a-z 0-9 `-` `_` and none the padding `=`. If
either derivation fails `CreateUser` returns the error, no user, and attempts
no insert. The encoder is the one of RFC 4648: the last conjuncts are its test
vectors. The hypothesis records that `scrypt.Key` returns a key of the
requested length. -/
theorem CreateUser_success {ε : Type} (env : Env ε) (username email : String)
    (hlen : ∀ pw salt N r p keyLen key,
      env.scryptKey pw salt N r p keyLen = .ok key → key.length = keyLen) :
    (∀ u, (CreateUser env username email).1 = .ok u →
      u.Status = .UsrStUnverified ∧ u.Username = username ∧ u.Email = email ∧
      u.MintToken = none ∧ u.Token = env.newToken ∧
      (∃ k1 k2, env.scryptKey env.randStr1 u.Token 16384 8 1 64 = .ok k1 ∧
        env.scryptKey env.randStr2 u.Token 16384 8 1 16 = .ok k2 ∧
        k1.length = 64 ∧ k2.length = 16 ∧
        u.Secret = String.mk (rawURLEncode k1) ∧
        u.Password = String.mk (rawURLEncode k2) ∧
        rawURLDecode u.Secret.data = some k1 ∧
        rawURLDecode u.Password.data = some k2 ∧
        (∀ k, rawURLEncode k = u.Secret.data → k = k1) ∧
        (∀ k, rawURLEncode k = u.Password.data → k = k2)) ∧
      u.Secret.length = 86 ∧ u.Password.length = 22 ∧
      (∀ c ∈ u.Secret.data, IsBase64URLChar c ∧ c ≠ '=') ∧
      (∀ c ∈ u.Password.data, IsBase64URLChar c ∧ c ≠ '=')) ∧
    (∀ k1 k2, env.scryptKey env.randStr1 env.newToken 16384 8 1 64 = .ok k1 →
      env.scryptKey env.randStr2 env.newToken 16384 8 1 16 = .ok k2 →
      env.namedExecInsert (insertedUser env username email k1 k2) = none →
      CreateUser env username email =
        (.ok (insertedUser env username email k1 k2),
         [insertedUser env username email k1 k2])) ∧
    (∀ err, env.scryptKey env.randStr1 env.newToken 16384 8 1 64 = .error err →
      CreateUser env username email = (.error (.derivation err), [])) ∧
    (∀ k1 err, env.scryptKey env.randStr1 env.newToken 16384 8 1 64 = .ok k1 →
      env.scryptKey env.randStr2 env.newToken 16384 8 1 16 = .error err →
      CreateUser env username email = (.error (.derivation err), [])) ∧
    (∀ src, rawURLDecode (rawURLEncode src) = some src) ∧
    rawURLEncode [102] = "Zg".data ∧
    rawURLEncode [102, 111] = "Zm8".data ∧
    rawURLEncode [102, 111, 111] = "Zm9v".data ∧
    rawURLEncode [102, 111, 111, 98] = "Zm9vYg".data ∧
    rawURLEncode [102, 111, 111, 98, 97] = "Zm9vYmE".data ∧
    rawURLEncode [102, 111, 111, 98, 97, 114] = "Zm9vYmFy".data ∧
    rawURLEncode [251, 255, 190] = "-_--".data ∧
    rawURLEncode [251, 255] = "-_8".data := by
  refine ⟨?_, ?_, CreateUser_of_secret_error env username email,
    CreateUser_of_password_error env username email,
    fun src => rawURLDecode_encode src.length src rfl,
    by decide, by decide, by decide, by decide, by decide, by decide, by decide, by decide⟩
  · intro u hu
    rcases CreateUser_cases env username email with ⟨err, hc⟩ | ⟨k1, k2, h1, h2, hc⟩
    · rw [hc] at hu; exact absurd hu (by simp)
    · cases hins : env.namedExecInsert (insertedUser env username email k1 k2) with
      | some e0 => rw [hc, hins] at hu; exact absurd hu (by simp)
      | none =>
        rw [hc, hins] at hu
        have hu2 : insertedUser env username email k1 k2 = u := by injection hu
        have l1 : k1.length = 64 := hlen _ _ _ _ _ _ _ h1
        have l2 : k2.length = 16 := hlen _ _ _ _ _ _ _ h2
        have e1 : (rawURLEncode k1).length = 86 := by
          rw [rawURLEncode_length 64 k1 l1]
        have e2 : (rawURLEncode k2).length = 22 := by
          rw [rawURLEncode_length 16 k2 l2]
        rw [← hu2]
        refine ⟨rfl, rfl, rfl, rfl, rfl,
          ⟨k1, k2, h1, h2, l1, l2, rfl, rfl, rawURLDecode_encode 64 k1 l1,
            rawURLDecode_encode 16 k2 l2,
            fun k hk => rawURLEncode_injective k k1 hk,
            fun k hk => rawURLEncode_injective k k2 hk⟩, e1, e2, ?_, ?_⟩
        · intro c hc
          have := rawURLEncode_alphabet 64 k1 l1 c hc
          exact ⟨this, IsBase64URLChar_ne_pad c this⟩
        · intro c hc
          have := rawURLEncode_alphabet 16 k2 l2 c hc
          exact ⟨this, IsBase64URLChar_ne_pad c this⟩
  · intro k1 k2 h1 h2 hins
    rw [CreateUser_of_keys env username email k1 k2 h1 h2, hins]

set_option maxRecDepth 100000 in
/-- Witness for C10: in the sample environment, whose derivation returns the
bytes `11, 48, 85, ...` and whose store accepts the `INSERT`, `CreateUser`
returns a user whose `Secret` and `Password` are the base64url texts of those
64 and 16 bytes, of 86 and 22 characters, and decoding `Secret` gives the 64
bytes back. -/
theorem CreateUser_success_witness :
    (∀ pw salt N r p keyLen key,
      sampleEnvOk.scryptKey pw salt N r p keyLen = .ok key → key.length = keyLen) ∧
    (CreateUser sampleEnvOk "alice" "a@x.com").1 =
      .ok { Token := "user_0", Created := 0, Status := .UsrStUnverified,
            Username := "alice", Email := "a@x.com",
            Secret := "CzBVep_E6Q4zWH2ix-wRNluApcrvFDleg6jN8hc8YYar0PUaP2SJrtP4HUJnjLHW-yBFao-02f4jSG2St9wBJg",
            Password := "CzBVep_E6Q4zWH2ix-wRNg", MintToken := none } ∧
    ("CzBVep_E6Q4zWH2ix-wRNluApcrvFDleg6jN8hc8YYar0PUaP2SJrtP4HUJnjLHW-yBFao-02f4jSG2St9wBJg" :
      String).length = 86 ∧
    ("CzBVep_E6Q4zWH2ix-wRNg" : String).length = 22 ∧
    rawURLDecode
      "CzBVep_E6Q4zWH2ix-wRNluApcrvFDleg6jN8hc8YYar0PUaP2SJrtP4HUJnjLHW-yBFao-02f4jSG2St9wBJg".data
      = some ((List.range 64).map (fun i => UInt8.ofNat (37 * i + 11))) :=
  have hlen : ∀ pw salt N r p keyLen key,
      sampleEnvOk.scryptKey pw salt N r p keyLen = .ok key → key.length = keyLen := by
    intro pw salt N r p keyLen key h
    have : (List.range keyLen).map (fun i => UInt8.ofNat (37 * i + 11)) = key := by
      simpa [sampleEnvOk] using h
    rw [← this, List.length_map, List.length_range]
  have hok : (CreateUser sampleEnvOk "alice" "a@x.com").1 =
      .ok { Token := "user_0", Created := 0, Status := .UsrStUnverified,
            Username := "alice", Email := "a@x.com",
            Secret := "CzBVep_E6Q4zWH2ix-wRNluApcrvFDleg6jN8hc8YYar0PUaP2SJrtP4HUJnjLHW-yBFao-02f4jSG2St9wBJg",
            Password := "CzBVep_E6Q4zWH2ix-wRNg", MintToken := none } := by decide
  have h := (CreateUser_success sampleEnvOk "alice" "a@x.com" hlen).1 _ hok
  have hk : sampleEnvOk.scryptKey sampleEnvOk.randStr1 "user_0" 16384 8 1 64 =
      .ok ((List.range 64).map (fun i => UInt8.ofNat (37 * i + 11))) := rfl
  ⟨hlen, hok, h.2.2.2.2.2.2.1, h.2.2.2.2.2.2.2.1,
    match h.2.2.2.2.2.1 with
    | ⟨k1, _, a1, _, _, _, _, _, d1, _⟩ => by
      have : k1 = (List.range 64).map (fun i => UInt8.ofNat (37 * i + 11)) :=
        Except.ok.inj (a1.symm.trans hk)
      rw [← this]; exact d1⟩

end Settle
